import Mathlib

set_option maxRecDepth 100000

/-!
Shallow embedding of the deposits-checker program (src/main.rs) and the parts
of its library (src/lib.rs) that the verified claims concern.

Byte sequences are modelled as lists of natural numbers (each entry one byte);
u64 / usize arithmetic is modelled on Nat, which is faithful here because no
operation in the modelled code can overflow for the values involved (indices
are compared and pushed, never multiplied; the chunker adds 1 to a block
number strictly below the exclusive range end).
-/

namespace Deposits

/-- Byte sequence, as used for the `data` field of a log. -/
abbrev Bytes := List Nat

/-- A reduced set of fields from an Eth1 contract log (struct `Log`). -/
structure Log where
  block_number : Nat
  data : Bytes
deriving DecidableEq

/-- Byte offset of the public key field in the ABI-encoded `DepositEvent` data. -/
def PUBKEY_START : Nat := 192

/-- Byte offset of the withdrawal credentials field. -/
def CREDS_START : Nat := PUBKEY_START + 64 + 32

/-- Byte offset of the amount field. -/
def AMOUNT_START : Nat := CREDS_START + 32 + 32

/-- Byte offset of the signature field. -/
def SIG_START : Nat := AMOUNT_START + 32 + 32

/-- Byte offset of the index field. -/
def INDEX_START : Nat := SIG_START + 96 + 32

/-- Byte length of the index field. -/
def INDEX_LEN : Nat := 8

/-- Rust slice indexing `bytes.get(start..stop)`: `some` of the sub-slice when
`start ≤ stop ≤ len`, `none` otherwise. -/
def sliceGet (l : Bytes) (start stop : Nat) : Option Bytes :=
  if start ≤ stop ∧ stop ≤ l.length then some ((l.drop start).take (stop - start)) else none

/-- Little-endian interpretation of a byte sequence as an unsigned integer. -/
def leValue (b : Bytes) : Nat :=
  b.foldr (fun x acc => x + 256 * acc) 0

/-- The `ssz` crate's `u64::from_ssz_bytes`: requires exactly 8 bytes and reads
them little-endian; otherwise an `InvalidByteLength` decode error (the error
text is modelled by a fixed string; the Rust string interpolates the lengths). -/
def u64_from_ssz_bytes (b : Bytes) : Except String Nat :=
  if b.length = 8 then .ok (leValue b)
  else .error "Invalid index ssz: InvalidByteLength"

/-- `from_log` from main.rs: slices the 8 index bytes at `INDEX_START` out of
`log.data` (truncation error when the slice is out of bounds) and SSZ-decodes
them as a little-endian u64. This program extracts only the index field. -/
def from_log (log : Log) : Except String Nat :=
  match sliceGet log.data INDEX_START (INDEX_START + INDEX_LEN) with
  | none => .error "Insufficient bytes for index"
  | some index => u64_from_ssz_bytes index

/-- The two fatal validator outcomes of the main loop: the
"Duplicate distinct log" panic and the "Non consecutive" (gap) panic. -/
inductive VError where
  | duplicateMismatch
  | gap
deriving DecidableEq

/-- One validator transition of the main loop on a decoded `index`, mirroring
`match index.cmp(&(indices.len() as u64))`: `Equal` pushes the index,
`Less` panics iff `indices[index] != index`, `Greater` panics with the gap
error. The error cases model `panic!`, which leaves no successor state. -/
def step (indices : List Nat) (index : Nat) : Except VError (List Nat) :=
  if index = indices.length then
    .ok (indices ++ [index])
  else if index < indices.length then
    if indices.getD index 0 ≠ index then .error .duplicateMismatch else .ok indices
  else
    .error .gap

/-- The validator run: fold `step` over a sequence of decoded indices,
aborting at the first fatal error. -/
def runValidator : List Nat → List Nat → Except VError (List Nat)
  | indices, [] => .ok indices
  | indices, i :: rest =>
    match step indices i with
    | .ok indices2 => runValidator indices2 rest
    | .error e => .error e

/-- A fatal outcome of the per-log pipeline: either the `from_log(..).unwrap()`
panic on a decode error, or a validator panic. -/
inductive RunError where
  | decodeFailed (msg : String)
  | validation (e : VError)
deriving DecidableEq

/-- The per-log pipeline of the main loop: decode each log with `from_log`
(`unwrap` panics on error) and feed the decoded index to the validator. -/
def processLogs : List Nat → List Log → Except RunError (List Nat)
  | indices, [] => .ok indices
  | indices, log :: rest =>
    match from_log log with
    | .error m => .error (.decodeFailed m)
    | .ok i =>
      match step indices i with
      | .error e => .error (.validation e)
      | .ok indices2 => processLogs indices2 rest

/-- Rust `slice::chunks(100)`, structurally recursive on a fuel argument that
bounds the number of chunks (each chunk consumes at least one element, so the
list length is always enough fuel). -/
def chunksOfAux : Nat → List Nat → List (List Nat)
  | 0, _ => []
  | _, [] => []
  | fuel + 1, l => l.take 100 :: chunksOfAux fuel (l.drop 100)

/-- Rust `slice::chunks(100)` on a list of block numbers. -/
def chunksOf (l : List Nat) : List (List Nat) :=
  chunksOfAux l.length l

/-- The chunker of main.rs: collect `[start, stop)`, split into chunks of 100,
and map each chunk `vec` to the half-open range
`vec.first().unwrap_or(0) .. vec.last().map(n + 1).unwrap_or(0)`, modelled as
a pair (start, end). -/
def range_chunks (start stop : Nat) : List (Nat × Nat) :=
  (chunksOf (List.range' start (stop - start))).map
    (fun vec => (vec.headD 0, ((vec.getLast?).map (fun n => n + 1)).getD 0))

/-- The compiled-in start of the scanned block range. -/
def START_BLOCK : Nat := 3085928

/-- The compiled-in exclusive end of the scanned block range. -/
def END_BLOCK : Nat := 3666393

/-- JSON values, the model of `serde_json::Value`. Objects keep their fields
as an association list. -/
inductive Json where
  | null
  | bool (b : Bool)
  | num (n : Int)
  | str (s : String)
  | arr (items : List Json)
  | obj (fields : List (String × Json))

/-- `serde_json::Value::get(key)`: field lookup on an object, `none` on every
other JSON value. -/
def Json.get : Json → String → Option Json
  | .obj fields, key => (fields.find? (fun p => p.1 == key)).map (fun p => p.2)
  | _, _ => none

/-- Failure outcomes of `response_result`. The Rust code formats both into a
`String`; the formatted node-error message is modelled structurally so that it
visibly carries the node's error payload. -/
inductive RpcError where
  | parseFailed (msg : String)
  | nodeError (payload : Json)

/-- `response_result` from main.rs / lib.rs. The call to
`serde_json::from_str` is a black-box library call; its outcome is the
argument (`none` for a body that is not valid JSON, `some json` for the parsed
envelope). An `error` field fails with the node's payload; otherwise the
`result` field is returned verbatim, `none` when absent. -/
def response_result (parsed : Option Json) : Except RpcError (Option Json) :=
  match parsed with
  | none => .error (.parseFailed "Failed to parse response")
  | some json =>
    match json.get "error" with
    | some e => .error (.nodeError e)
    | none => .ok (json.get "result")

/-- Little-endian encoding of `n` into `len` bytes (used only to build the
synthetic ABI buffers the round-trip claims feed to `from_log`). -/
def encode_le : Nat → Nat → Bytes
  | _, 0 => []
  | n, len + 1 => n % 256 :: encode_le (n / 256) len

/-- Everything of a synthetic ABI-encoded `DepositEvent` data buffer that
precedes the index bytes: the first four fields at the fixed layout offsets,
with zero padding in between (the padding bytes hold ABI offset/length words
in real logs; `from_log` never reads them). -/
def synthPrefix (pubkey creds : Bytes) (amount : Nat) (sig : Bytes) : Bytes :=
  (((((((List.replicate PUBKEY_START 0 ++ pubkey)
    ++ List.replicate (CREDS_START - (PUBKEY_START + 48)) 0) ++ creds)
    ++ List.replicate (AMOUNT_START - (CREDS_START + 32)) 0) ++ encode_le amount 8)
    ++ List.replicate (SIG_START - (AMOUNT_START + 8)) 0) ++ sig)
    ++ List.replicate (INDEX_START - (SIG_START + 96)) 0

/-- A synthetic ABI-encoded `DepositEvent` data buffer: the five fields placed
at the fixed layout offsets. -/
def synthBuffer (pubkey creds : Bytes) (amount : Nat) (sig : Bytes) (index : Nat) : Bytes :=
  synthPrefix pubkey creds amount sig ++ encode_le index 8

/-- A concrete synthetic log: constant pubkey byte, constant credentials byte,
zero signature, and the given amount and index. -/
def synthLog (pk c amount index : Nat) : Log :=
  ⟨0, synthBuffer (List.replicate 48 pk) (List.replicate 32 c) amount (List.replicate 96 0) index⟩

/-- Accepting transition: when the decoded index equals the number of accepted
indices, it is pushed. -/
theorem step_push (s : List Nat) : step s s.length = .ok (s ++ [s.length]) := by
  simp [step]

/-- Gap transition: a decoded index above the next expected one fails with the
gap panic. -/
theorem step_gap (s : List Nat) (i : Nat) (h : s.length < i) : step s i = .error .gap := by
  unfold step
  rw [if_neg (by omega), if_neg (by omega)]

/-- Duplicate transition: a decoded index below the next expected one checks
the recorded value at that position. -/
theorem step_dup (s : List Nat) (i : Nat) (h : i < s.length) :
    step s i = if s.getD i 0 ≠ i then .error .duplicateMismatch else .ok s := by
  unfold step
  rw [if_neg (by omega), if_pos h]

/-- Running the validator over an appended sequence runs the two parts in
order, aborting on the first error. -/
theorem runValidator_append (s l1 l2 : List Nat) :
    runValidator s (l1 ++ l2) =
      match runValidator s l1 with
      | .ok s2 => runValidator s2 l2
      | .error e => .error e := by
  induction l1 generalizing s with
  | nil => rfl
  | cons i l1 ih =>
    show (match step s i with
          | .ok s2 => runValidator s2 (l1 ++ l2)
          | .error e => .error e) = _
    cases hst : step s i with
    | ok s2 => simp [runValidator, hst, ih s2]
    | error e => simp [runValidator, hst]

/-- C4: a decoded index strictly greater than the next expected index causes
an immediate fatal gap failure, with no successor state; in particular feeding
0,1,3 fails at the third value (the first two are accepted). -/
theorem claim_c4 (s : List Nat) (i : Nat) (h : s.length < i) :
    step s i = Except.error VError.gap
      ∧ runValidator [] [0, 1, 3] = Except.error VError.gap
      ∧ runValidator [] [0, 1] = Except.ok [0, 1]
      ∧ step [0, 1] 3 = Except.error VError.gap :=
  ⟨step_gap s i h, rfl, rfl, rfl⟩

/-- Witness for C4 at the concrete state `[]` and index `1`. -/
theorem claim_c4_witness :
    step ([] : List Nat) 1 = Except.error VError.gap
      ∧ runValidator [] [0, 1, 3] = Except.error VError.gap
      ∧ runValidator [] [0, 1] = Except.ok [0, 1]
      ∧ step [0, 1] 3 = Except.error VError.gap :=
  claim_c4 [] 1 (by decide)

/-- C5: feeding the indices 0,1,...,N-1 in order from the initial state
accepts every index and leaves the accepted-indices list (whose length is the
next expected index) equal to 0,1,...,N-1, of length N. -/
theorem claim_c5 (N : Nat) :
    runValidator [] (List.range N) = Except.ok (List.range N)
      ∧ (List.range N).length = N := by
  refine ⟨?_, List.length_range N⟩
  induction N with
  | zero => rfl
  | succ n ih =>
    rw [List.range_succ, runValidator_append, ih]
    have hstep : step (List.range n) n = .ok (List.range n ++ [n]) := by
      have h := step_push (List.range n)
      rwa [List.length_range] at h
    simp [runValidator, hstep, List.range_succ]

/-- C6: a re-delivered duplicate index whose recorded value matches is
tolerated without error and without changing validator state; 0,1,1,2 is fully
accepted, and 5,6,6 fed to the state 0..4 leaves the next expected index 7. -/
theorem claim_c6 (s : List Nat) (i : Nat) (h1 : i < s.length) (h2 : s.getD i 0 = i) :
    step s i = Except.ok s
      ∧ runValidator [] [0, 1, 1, 2] = Except.ok [0, 1, 2]
      ∧ runValidator [0, 1, 2, 3, 4] [5, 6, 6] = Except.ok [0, 1, 2, 3, 4, 5, 6]
      ∧ ([0, 1, 2, 3, 4, 5, 6] : List Nat).length = 7 := by
  refine ⟨?_, rfl, rfl, rfl⟩
  rw [step_dup s i h1, if_neg (not_not_intro h2)]

/-- Witness for C6 at the concrete state `[0]` and index `0`. -/
theorem claim_c6_witness :
    step [0] 0 = Except.ok [0]
      ∧ runValidator [] [0, 1, 1, 2] = Except.ok [0, 1, 2]
      ∧ runValidator [0, 1, 2, 3, 4] [5, 6, 6] = Except.ok [0, 1, 2, 3, 4, 5, 6]
      ∧ ([0, 1, 2, 3, 4, 5, 6] : List Nat).length = 7 :=
  claim_c6 [0] 0 (by decide) (by decide)

/-- A successful transition preserves the invariant that the accepted-indices
list holds exactly 0,1,2,... at positions 0,1,2,.... -/
theorem step_preserves_inv (s s2 : List Nat) (i : Nat)
    (hs : ∀ k, k < s.length → s.getD k 0 = k) (h : step s i = .ok s2) :
    ∀ k, k < s2.length → s2.getD k 0 = k := by
  by_cases he : i = s.length
  · subst he
    rw [step_push] at h
    cases h
    intro k hk
    rw [List.length_append, List.length_singleton] at hk
    rcases Nat.lt_or_ge k s.length with hlt | hge
    · rw [List.getD_append _ _ _ _ hlt]
      exact hs k hlt
    · have hk2 : k = s.length := by omega
      subst hk2
      rw [List.getD_append_right _ _ _ _ (le_refl _), Nat.sub_self]
      rfl
  · by_cases hlt : i < s.length
    · rw [step_dup s i hlt] at h
      by_cases hd : s.getD i 0 ≠ i
      · rw [if_pos hd] at h
        cases h
      · rw [if_neg hd] at h
        cases h
        exact hs
    · rw [step_gap s i (by omega)] at h
      cases h

/-- The invariant of `step_preserves_inv` is preserved along any successful
validator run. -/
theorem runValidator_inv (l : List Nat) : ∀ s s2, runValidator s l = .ok s2 →
    (∀ k, k < s.length → s.getD k 0 = k) → ∀ k, k < s2.length → s2.getD k 0 = k := by
  induction l with
  | nil =>
    intro s s2 h hs
    cases h
    exact hs
  | cons i rest ih =>
    intro s s2 h hs
    unfold runValidator at h
    cases hst : step s i with
    | error e => rw [hst] at h; cases h
    | ok s1 =>
      rw [hst] at h
      exact ih s1 s2 h (step_preserves_inv s s1 i hs hst)

/-- C9: along any successful validator run from the initial state, the
accepted-indices vector satisfies indices[k] = k below its length, so when a
decoded index is below the length the recorded value necessarily matches and
the duplicate-mismatch ("Duplicate distinct log") branch is unreachable. -/
theorem claim_c9 (l s : List Nat) (i : Nat) (h : runValidator [] l = Except.ok s) :
    (∀ k, k < s.length → s.getD k 0 = k)
      ∧ step s i ≠ Except.error VError.duplicateMismatch := by
  have hinv : ∀ k, k < s.length → s.getD k 0 = k :=
    runValidator_inv l [] s h (by intro k hk; simp at hk)
  refine ⟨hinv, ?_⟩
  by_cases he : i = s.length
  · subst he
    rw [step_push]
    intro hc
    cases hc
  · by_cases hlt : i < s.length
    · rw [step_dup s i hlt, if_neg (not_not_intro (hinv i hlt))]
      intro hc
      cases hc
    · rw [step_gap s i (by omega)]
      intro hc
      simp at hc

/-- Witness for C9 at the concrete run 0,1,1 and probe index 1. -/
theorem claim_c9_witness :
    (∀ k, k < ([0, 1] : List Nat).length → ([0, 1] : List Nat).getD k 0 = k)
      ∧ step [0, 1] 1 ≠ Except.error VError.duplicateMismatch :=
  claim_c9 [0, 1, 1] [0, 1] 1 rfl

/-- C1 counterexample: two logs with index 1 but different record content (a
differing credentials byte) are both decoded to index 1, and feeding the index
sequence 0,1,1,2 with the differing-content duplicate does not fail: the whole
pipeline run accepts all four logs and ends in state [0, 1, 2]. -/
theorem claim_c1_counterexample :
    from_log (synthLog 0 0 32 1) = Except.ok 1
      ∧ from_log (synthLog 0 7 32 1) = Except.ok 1
      ∧ (synthLog 0 0 32 1).data ≠ (synthLog 0 7 32 1).data
      ∧ processLogs [] [synthLog 0 0 32 0, synthLog 0 0 32 1, synthLog 0 7 32 1, synthLog 0 0 32 2]
          = Except.ok [0, 1, 2] :=
  ⟨rfl, rfl, by decide, rfl⟩

/-- C1 (amended): the validator compares only index values, never record
content: the duplicate-mismatch ("Duplicate distinct log") failure fires
exactly when the decoded index i is below the next expected index and the
recorded value at position i differs from i; a duplicate index with different
record content (0,1,1,2 with a differing second 1) is accepted. -/
theorem claim_c1 (s : List Nat) (i : Nat) :
    (step s i = Except.error VError.duplicateMismatch ↔ i < s.length ∧ s.getD i 0 ≠ i)
      ∧ processLogs [] [synthLog 0 0 32 0, synthLog 0 0 32 1, synthLog 0 7 32 1, synthLog 0 0 32 2]
          = Except.ok [0, 1, 2] := by
  refine ⟨?_, rfl⟩
  constructor
  · intro h
    by_cases he : i = s.length
    · subst he
      rw [step_push] at h
      cases h
    · by_cases hlt : i < s.length
      · refine ⟨hlt, ?_⟩
        rw [step_dup s i hlt] at h
        by_cases hd : s.getD i 0 ≠ i
        · exact hd
        · rw [if_neg hd] at h
          cases h
      · rw [step_gap s i (by omega)] at h
        simp at h
  · rintro ⟨hlt, hd⟩
    rw [step_dup s i hlt, if_pos hd]

/-- C7: any log whose data is shorter than INDEX_START + INDEX_LEN bytes makes
`from_log` return the truncation error "Insufficient bytes for index"; being a
total function into a Result, it never panics and never returns partial data. -/
theorem claim_c7 (log : Log) (h : log.data.length < INDEX_START + INDEX_LEN) :
    from_log log = Except.error "Insufficient bytes for index" := by
  unfold from_log sliceGet
  rw [if_neg (fun hc => absurd hc.2 (by omega))]

/-- Witness for C7 at the empty-data log. -/
theorem claim_c7_witness :
    from_log ⟨0, []⟩ = Except.error "Insufficient bytes for index" :=
  claim_c7 ⟨0, []⟩ (by decide)

/-- C10: whenever the index slice extraction succeeds it yields exactly 8
bytes, so the SSZ u64 decode always succeeds: `from_log` returns either the
truncation error or a decoded index, never the "Invalid index ssz" error. -/
theorem claim_c10 (log : Log) :
    from_log log = Except.error "Insufficient bytes for index"
      ∨ ∃ n, from_log log = Except.ok n := by
  unfold from_log sliceGet
  by_cases hc : INDEX_START ≤ INDEX_START + INDEX_LEN ∧ INDEX_START + INDEX_LEN ≤ log.data.length
  · rw [if_pos hc]
    right
    have hil : INDEX_LEN = 8 := rfl
    have hlen : ((log.data.drop INDEX_START).take (INDEX_START + INDEX_LEN - INDEX_START)).length = 8 := by
      rw [List.length_take, List.length_drop]
      have h2 := hc.2
      omega
    refine ⟨leValue ((log.data.drop INDEX_START).take (INDEX_START + INDEX_LEN - INDEX_START)), ?_⟩
    show u64_from_ssz_bytes _ = _
    unfold u64_from_ssz_bytes
    rw [if_pos hlen]
  · rw [if_neg hc]
    left
    rfl

/-- C8: a body that is not valid JSON is an error; an envelope with an `error`
field is an error carrying the node's payload, even when a `result` field is
also present; otherwise the `result` field is returned verbatim, with an
absent `result` the distinct `none` outcome rather than an error. -/
theorem claim_c8 (j : Json) :
    response_result none = Except.error (RpcError.parseFailed "Failed to parse response")
      ∧ response_result (some j) =
          (match j.get "error" with
           | some e => Except.error (RpcError.nodeError e)
           | none => Except.ok (j.get "result"))
      ∧ response_result (some (Json.obj [("error", Json.str "boom"), ("result", Json.num 1)]))
          = Except.error (RpcError.nodeError (Json.str "boom"))
      ∧ response_result (some (Json.obj [("jsonrpc", Json.str "2.0"), ("result", Json.num 1)]))
          = Except.ok (some (Json.num 1))
      ∧ response_result (some (Json.obj [("jsonrpc", Json.str "2.0")])) = Except.ok none := by
  refine ⟨rfl, ?_, rfl, rfl, rfl⟩
  cases h : j.get "error" <;> simp [response_result, h]

/-- Little-endian encoding into `len` bytes produces `len` bytes. -/
theorem length_encode_le (n len : Nat) : (encode_le n len).length = len := by
  induction len generalizing n with
  | zero => rfl
  | succ k ih => simp [encode_le, ih]

/-- Decoding the little-endian encoding recovers the value modulo 256^len. -/
theorem leValue_encode_le (n len : Nat) : leValue (encode_le n len) = n % 256 ^ len := by
  induction len generalizing n with
  | zero => simp [encode_le, leValue, Nat.mod_one]
  | succ k ih =>
    show n % 256 + 256 * leValue (encode_le (n / 256) k) = n % 256 ^ (k + 1)
    rw [ih, pow_succ, mul_comm (256 ^ k) 256, Nat.mod_mul]

/-- The part of a synthetic buffer preceding the index bytes is exactly
`INDEX_START` bytes long when the variable-length fields have their layout
lengths. -/
theorem length_synthPrefix (pubkey creds : Bytes) (amount : Nat) (sig : Bytes)
    (hpk : pubkey.length = 48) (hc : creds.length = 32) (hs : sig.length = 96) :
    (synthPrefix pubkey creds amount sig).length = INDEX_START := by
  unfold synthPrefix
  simp [List.length_append, hpk, hc, hs, length_encode_le]
  decide

/-- C2 counterexample: two synthetic buffers that differ only in the public
key field decode to the same result, so `from_log` does not reproduce the
public key (or any field other than the index): it returns only the index. -/
theorem claim_c2_counterexample :
    (synthLog 1 0 32 5).data ≠ (synthLog 2 0 32 5).data
      ∧ from_log (synthLog 1 0 32 5) = from_log (synthLog 2 0 32 5)
      ∧ from_log (synthLog 1 0 32 5) = Except.ok 5 := by
  have h1 : from_log (synthLog 1 0 32 5) = Except.ok 5 := rfl
  have h2 : from_log (synthLog 2 0 32 5) = Except.ok 5 := rfl
  exact ⟨by decide, h1.trans h2.symm, h1⟩

/-- C2 (amended): decoding a synthetic ABI-encoded buffer built with known
values for the five deposit fields at the fixed layout offsets reproduces
exactly the index field value; the decoder of this program extracts only the
index, leaving the other four fields unread. -/
theorem claim_c2 (pubkey creds sig : Bytes) (amount index bn : Nat)
    (hpk : pubkey.length = 48) (hc : creds.length = 32) (hs : sig.length = 96)
    (hidx : index < 2 ^ 64) :
    from_log ⟨bn, synthBuffer pubkey creds amount sig index⟩ = Except.ok index := by
  have hpre := length_synthPrefix pubkey creds amount sig hpk hc hs
  have hlen : (synthBuffer pubkey creds amount sig index).length = INDEX_START + INDEX_LEN := by
    unfold synthBuffer
    rw [List.length_append, hpre, length_encode_le]
    rfl
  unfold from_log sliceGet
  rw [if_pos ⟨Nat.le_add_right _ _, le_of_eq hlen.symm⟩]
  have hdrop : (synthBuffer pubkey creds amount sig index).drop INDEX_START = encode_le index 8 := by
    unfold synthBuffer
    rw [← hpre, List.drop_left]
  have htake : ((synthBuffer pubkey creds amount sig index).drop INDEX_START).take
      (INDEX_START + INDEX_LEN - INDEX_START) = encode_le index 8 := by
    rw [hdrop]
    have : INDEX_START + INDEX_LEN - INDEX_START = (encode_le index 8).length := by
      rw [length_encode_le]
      decide
    rw [this, List.take_length]
  rw [htake]
  show u64_from_ssz_bytes _ = _
  unfold u64_from_ssz_bytes
  rw [if_pos (length_encode_le index 8), leValue_encode_le]
  have h256 : (256 : Nat) ^ 8 = 2 ^ 64 := by norm_num
  rw [h256, Nat.mod_eq_of_lt hidx]

/-- Witness for C2 at concrete field values. -/
theorem claim_c2_witness :
    from_log ⟨0, synthBuffer (List.replicate 48 1) (List.replicate 32 2) 32000000000
        (List.replicate 96 3) 5⟩ = Except.ok 5 :=
  claim_c2 (List.replicate 48 1) (List.replicate 32 2) (List.replicate 96 3) 32000000000 5 0
    (by decide) (by decide) (by decide) (by decide)

/-- Taking a prefix of a block-number range is a shorter range. -/
theorem range'_take (s n k : Nat) : (List.range' s n).take k = List.range' s (min k n) := by
  induction n generalizing s k with
  | zero => simp
  | succ m ih =>
    cases k with
    | zero => simp
    | succ k2 =>
      rw [List.range'_succ, List.take_succ_cons, ih, Nat.succ_min_succ, List.range'_succ]

/-- Dropping a prefix of a block-number range is a later range. -/
theorem range'_drop (s n k : Nat) : (List.range' s n).drop k = List.range' (s + k) (n - k) := by
  induction n generalizing s k with
  | zero => simp
  | succ m ih =>
    cases k with
    | zero => simp
    | succ k2 =>
      rw [List.range'_succ, List.drop_succ_cons, ih]
      congr 1 <;> omega

/-- The first element of a nonempty block-number range. -/
theorem range'_headD (s n : Nat) (h : 0 < n) : (List.range' s n).headD 0 = s := by
  cases n with
  | zero => omega
  | succ m => rw [List.range'_succ, List.headD_cons]

/-- The last element of a nonempty block-number range. -/
theorem range'_getLast? (s n : Nat) (h : 0 < n) :
    (List.range' s n).getLast? = some (s + n - 1) := by
  cases n with
  | zero => omega
  | succ m =>
    rw [List.range'_1_concat, List.getLast?_concat]
    have he : s + (m + 1) - 1 = s + m := by omega
    rw [he]

/-- The chunking recursion does not depend on the fuel, as long as the fuel is
at least the list length. -/
theorem chunksOfAux_congr (f1 : Nat) : ∀ (f2 : Nat) (l : List Nat),
    l.length ≤ f1 → l.length ≤ f2 → chunksOfAux f1 l = chunksOfAux f2 l := by
  induction f1 with
  | zero =>
    intro f2 l h1 h2
    have : l = [] := List.length_eq_zero.mp (by omega)
    subst this
    cases f2 <;> rfl
  | succ f ih =>
    intro f2 l h1 h2
    cases l with
    | nil => cases f2 <;> rfl
    | cons a l2 =>
      cases f2 with
      | zero => simp at h2
      | succ g =>
        show (a :: l2).take 100 :: chunksOfAux f ((a :: l2).drop 100)
            = (a :: l2).take 100 :: chunksOfAux g ((a :: l2).drop 100)
        congr 1
        apply ih
        · simp only [List.length_drop, List.length_cons]
          simp only [List.length_cons] at h1
          omega
        · simp only [List.length_drop, List.length_cons]
          simp only [List.length_cons] at h2
          omega

/-- Unfolding equation of the chunker on a nonempty list. -/
theorem chunksOf_cons (l : List Nat) (h : l ≠ []) :
    chunksOf l = l.take 100 :: chunksOf (l.drop 100) := by
  cases l with
  | nil => exact absurd rfl h
  | cons a l2 =>
    show (a :: l2).take 100 :: chunksOfAux l2.length ((a :: l2).drop 100)
        = (a :: l2).take 100 :: chunksOf ((a :: l2).drop 100)
    congr 1
    exact chunksOfAux_congr l2.length _ _
      (by simp only [List.length_drop, List.length_cons]; omega) (le_refl _)

/-- An empty block interval produces no chunk ranges. -/
theorem range_chunks_zero (s : Nat) : range_chunks s s = [] := by
  unfold range_chunks
  rw [Nat.sub_self]
  rfl

/-- Unfolding equation of the chunker on a nonempty block interval: the first
produced range covers the first `min 100 n` blocks and the rest is the chunker
of the remaining interval. -/
theorem range_chunks_succ (s n : Nat) (h : 0 < n) :
    range_chunks s (s + n) =
      (s, s + min 100 n) :: range_chunks (s + min 100 n) (s + n) := by
  unfold range_chunks
  have hd : s + n - s = n := by omega
  rw [hd]
  have hne : List.range' s n ≠ [] := by
    rw [Ne, List.range'_eq_nil]
    omega
  rw [chunksOf_cons _ hne, List.map_cons]
  have hmin : 0 < min 100 n := by omega
  congr 1
  · rw [range'_take, range'_headD _ _ hmin, range'_getLast? _ _ hmin]
    show (s, s + min 100 n - 1 + 1) = (s, s + min 100 n)
    congr 1
    omega
  · rw [range'_drop]
    have hd2 : s + n - (s + min 100 n) = n - min 100 n := by omega
    rw [hd2]
    by_cases h100 : 100 < n
    · have hm : min 100 n = 100 := by omega
      rw [hm]
    · have hm : min 100 n = n := by omega
      have h0 : n - 100 = 0 := by omega
      rw [hm, h0, Nat.sub_self]
      rfl

/-- The chunker's output, mapped back to block intervals, flattens to exactly
the input interval, and every produced range is nonempty of width at most
100. -/
theorem range_chunks_spec (n : Nat) : ∀ s : Nat,
    ((range_chunks s (s + n)).map (fun r => List.range' r.1 (r.2 - r.1))).flatten
        = List.range' s n
      ∧ ∀ r ∈ range_chunks s (s + n), r.1 < r.2 ∧ r.2 - r.1 ≤ 100 := by
  induction n using Nat.strong_induction_on with
  | _ n ih =>
    intro s
    rcases Nat.eq_zero_or_pos n with h0 | hpos
    · subst h0
      rw [Nat.add_zero, range_chunks_zero]
      exact ⟨rfl, by intro r hr; cases hr⟩
    · rw [range_chunks_succ s n hpos]
      have hm1 : 0 < min 100 n := by omega
      have hmn : min 100 n ≤ n := by omega
      have heq : s + n = (s + min 100 n) + (n - min 100 n) := by omega
      obtain ⟨ih1, ih2⟩ := ih (n - min 100 n) (by omega) (s + min 100 n)
      rw [← heq] at ih1 ih2
      constructor
      · rw [List.map_cons, List.flatten_cons, ih1]
        show List.range' s (s + min 100 n - s) ++ _ = _
        have hw : s + min 100 n - s = min 100 n := by omega
        rw [hw]
        have happ := List.range'_append s (min 100 n) (n - min 100 n) 1
        rw [Nat.one_mul] at happ
        rw [happ]
        congr 1
        omega
      · intro r hr
        rcases List.mem_cons.mp hr with hr2 | hr2
        · subst hr2
          refine ⟨?_, ?_⟩
          · show s < s + min 100 n
            omega
          · show s + min 100 n - s ≤ 100
            omega
        · exact ih2 r hr2

/-- C3: for every start ≤ end, the chunker splits the half-open interval
into consecutive sub-ranges in ascending order, each nonempty of width at most
the chunk size 100, with no gaps and no overlaps, whose concatenation is
exactly the interval; for start = end the produced sequence is empty. -/
theorem claim_c3 (start stop : Nat) (h : start ≤ stop) :
    ((range_chunks start stop).map (fun r => List.range' r.1 (r.2 - r.1))).flatten
        = List.range' start (stop - start)
      ∧ (∀ r ∈ range_chunks start stop, r.1 < r.2 ∧ r.2 - r.1 ≤ 100)
      ∧ (start = stop → range_chunks start stop = []) := by
  obtain ⟨h1, h2⟩ := range_chunks_spec (stop - start) start
  have e : start + (stop - start) = stop := by omega
  rw [e] at h1 h2
  refine ⟨h1, h2, ?_⟩
  intro heq
  subst heq
  exact range_chunks_zero start

/-- Witness for C3 at the concrete interval 0..250 (three chunks). -/
theorem claim_c3_witness :
    ((range_chunks 0 250).map (fun r => List.range' r.1 (r.2 - r.1))).flatten
        = List.range' 0 (250 - 0)
      ∧ (∀ r ∈ range_chunks 0 250, r.1 < r.2 ∧ r.2 - r.1 ≤ 100)
      ∧ (0 = 250 → range_chunks 0 250 = []) :=
  claim_c3 0 250 (by decide)

end Deposits
